import Mathlib

/-!
Shallow embedding of the SHL assessment recommendation engine
(`recommender/recommend.py`, `embeddings/build_index.py`, `api/main.py`).

Strings are modelled as `List Char` (`Str`): the Python code only performs
character-level operations (lowercasing, stripping, whitespace splitting,
substring tests), and the core `String` functions of Lean are defined by
well-founded recursion, which does not reduce definitionally.  Python floats
are modelled as `ℚ`: every constant appearing in the scoring formulas is a
small decimal and the spec states the formulas as exact arithmetic.
Fallible operations (dict indexing that can raise `KeyError`, the embedding
RPC that can raise) are modelled with `Option`, `none` standing for an
uncaught exception aborting the call.
-/

namespace SHLRec

abbrev Str := List Char

/-- ASCII lowercasing of one character, as `str.lower` acts on ASCII text. -/
def lowerC (c : Char) : Char :=
  if ('A') ≤ c && c ≤ ('Z') then Char.ofNat (c.toNat + 32) else c

/-- Python `str.lower()` on ASCII text. -/
def lowerS (s : Str) : Str := s.map lowerC

/-- Whitespace, as recognised by Python `str.strip()` / `str.split()`. -/
def isWs (c : Char) : Bool := c = (' ') || c = ('\t') || c = ('\n') || c = ('\r')

/-- Python `str.strip()`: drop leading and trailing whitespace. -/
def trimS (s : Str) : Str := ((s.dropWhile isWs).reverse.dropWhile isWs).reverse

/-- Query normalisation `query.lower().strip()` used throughout the engine. -/
def normQ (s : Str) : Str := trimS (lowerS s)

/-- Helper for `splitWs`: accumulates the current (reversed) token. -/
def splitWsAux : Str → Str → List Str
  | [], acc => if acc.isEmpty then [] else [acc.reverse]
  | c :: cs, acc =>
    if isWs c then
      if acc.isEmpty then splitWsAux cs [] else acc.reverse :: splitWsAux cs []
    else splitWsAux cs (c :: acc)

/-- Python `str.split()` with no separator: split on whitespace runs,
dropping empty tokens. -/
def splitWs (s : Str) : List Str := splitWsAux s []

/-- Boolean list-prefix test (structural, so it reduces). -/
def isPrefixOfB : Str → Str → Bool
  | [], _ => true
  | _ :: _, [] => false
  | a :: as, b :: bs => a = b && isPrefixOfB as bs

/-- Boolean contiguous-sublist test. -/
def isInfixOfB (n : Str) : Str → Bool
  | [] => n.isEmpty
  | c :: cs => isPrefixOfB n (c :: cs) || isInfixOfB n cs

/-- Python `needle in hay` on strings: substring containment. -/
def containsS (hay needle : Str) : Bool := isInfixOfB needle hay

/-- Catalog record, after the fields used by the pipeline
(`shl_assessments.json` entries; `.get` defaults are the empty values). -/
structure Assessment where
  url : Str
  name : Str
  description : Str
  test_type : List Str
  job_levels : List Str
  adaptive_support : Str
  remote_support : Str
  duration : Str
deriving DecidableEq

/-- The training index built by `Recommender._build_training_index`.
The `url_to_queries` table is also built by the source but never read by
any scoring function, so it is omitted here. -/
structure TrainingIndex where
  query_to_urls : List (Str × List Str)
  all_training_urls : List Str
deriving DecidableEq

/-- Association-list update mirroring `defaultdict(list)` append:
`query_to_urls[query].append(url)` with insertion order preserved. -/
def addRow : List (Str × List Str) → Str → Str → List (Str × List Str)
  | [], q, u => [(q, [u])]
  | (k, vs) :: rest, q, u =>
    if k = q then (k, vs ++ [u]) :: rest else (k, vs) :: addRow rest q u

/-- First-match association-list lookup (Python dict lookup). -/
def lookupQ : List (Str × List Str) → Str → Option (List Str)
  | [], _ => none
  | (k, vs) :: rest, q => if k = q then some vs else lookupQ rest q

/-- The list a key maps to, or `[]` when absent. -/
def lookupGet (m : List (Str × List Str)) (q : Str) : List Str :=
  (lookupQ m q).getD []

/-- Grouping pass of `_build_training_index`: each row's query is
normalised with `str(row['Query']).lower().strip()` and its url appended. -/
def buildQueryToUrls (rows : List (Str × Str)) : List (Str × List Str) :=
  rows.foldl (fun m r => addRow m (normQ r.1) r.2) []

/-- `Recommender._build_training_index` on a successfully read spreadsheet:
rows are `(Query, Assessment_url)` pairs. -/
def build_training_index (rows : List (Str × Str)) : TrainingIndex :=
  { query_to_urls := buildQueryToUrls rows
    all_training_urls := rows.map (·.2) }

/-- The degraded index returned when the training source cannot be read:
`{'query_to_urls': {}, 'url_to_queries': {}, 'all_training_urls': set()}`. -/
def emptyTrainingIndex : TrainingIndex :=
  { query_to_urls := [], all_training_urls := [] }

/-- `_build_training_index` including its `try/except`: `none` models a
missing or unreadable `Gen_AI Dataset.xlsx`, which is caught and degraded
to the empty index with a printed warning. -/
def build_training_index_safe : Option (List (Str × Str)) → TrainingIndex
  | none => emptyTrainingIndex
  | some rows => build_training_index rows

/-- Strategy 1 of `_compute_training_score`: the normalised query is a key
of `query_to_urls` and `url` is among its mapped urls. -/
def exactMatchB (idx : TrainingIndex) (ql url : Str) : Bool :=
  match lookupQ idx.query_to_urls ql with
  | some urls => decide (url ∈ urls)
  | none => false

/-- One iteration of the strategy-2 loop of `_compute_training_score`:
the accumulator is `(score, max_overlap_score)`. -/
def scoreStep (ql url : Str) (acc : ℚ × ℚ) (e : Str × List Str) : ℚ × ℚ :=
  if url ∈ e.2 then
    if containsS e.1 ql || containsS ql e.1 then
      (max acc.1 8, acc.2)
    else
      let qt := (splitWs ql).toFinset
      let tt := (splitWs e.1).toFinset
      if qt = ∅ ∨ tt = ∅ then acc
      else
        let un := qt ∪ tt
        if un = ∅ then acc
        else
          let inter := qt ∩ tt
          (acc.1,
            max acc.2
              (((inter.card : ℚ) / un.card * (1/2) +
                (inter.card : ℚ) / qt.card * (1/2)) * 6))
  else acc

/-- Strategies 2 and 3 of `_compute_training_score` (everything after the
exact-match early return). -/
def trainingBase (idx : TrainingIndex) (ql url : Str) : ℚ :=
  let p := idx.query_to_urls.foldl (scoreStep ql url) (0, 0)
  let s := max p.1 p.2
  if url ∈ idx.all_training_urls then s + 1/2 else s

/-- `Recommender._compute_training_score`. -/
def compute_training_score (idx : TrainingIndex) (query url : Str) : ℚ :=
  let ql := normQ query
  if exactMatchB idx ql url then 10 else trainingBase idx ql url

/-- Stop-word list of `_extract_key_terms`. -/
def stopwords : List Str :=
  (["a", "an", "and", "are", "as", "at", "be", "by", "for", "from",
    "has", "he", "in", "is", "it", "its", "of", "on", "that", "the",
    "to", "was", "will", "with", "i", "am", "my", "can", "who", "also",
    "want", "need", "looking", "hire", "hiring", "test", "assessment"]).map
    String.toList

/-- `Recommender._extract_key_terms`. -/
def extract_key_terms (text : Str) : Finset Str :=
  ((splitWs (lowerS text)).filter
    (fun t => decide (t ∉ stopwords) && decide (2 < t.length))).toFinset

/-- `Recommender._compute_name_overlap`. -/
def compute_name_overlap (query : Str) (a : Assessment) : ℚ :=
  let qt := extract_key_terms query
  let nt := extract_key_terms a.name
  let dt := extract_key_terms a.description
  let nameOv : ℚ := (qt ∩ nt).card
  let descOv : ℚ := (qt ∩ dt).card
  if qt = ∅ then 0
  else min ((nameOv * 2 + descOv) / ((qt.card : ℚ) * 2)) 1

def technicalKeywords : List Str :=
  (["java", "python", "sql", "javascript", "developer", "programming",
    "technical", "code", "coding", "software", "engineer", "data"]).map
    String.toList

def behavioralKeywords : List Str :=
  (["collaborate", "communication", "leadership", "team", "interpersonal",
    "personality", "behavior", "cultural", "culture", "fit"]).map
    String.toList

def businessKeywords : List Str :=
  (["sales", "business", "customer", "client", "marketing"]).map String.toList

def entryKeywords : List Str :=
  (["graduate", "entry", "junior", "new hire", "fresh"]).map String.toList

/-- Whether any of the keywords occurs as a substring of the query. -/
def anyKeyword (ql : Str) (kws : List Str) : Bool :=
  kws.any (fun kw => containsS ql kw)

/-- `Recommender._compute_test_type_alignment`. -/
def compute_test_type_alignment (query : Str) (a : Assessment) : ℚ :=
  let ql := lowerS query
  let needsK := anyKeyword ql technicalKeywords
  let needsP := anyKeyword ql behavioralKeywords
  let needsB := anyKeyword ql businessKeywords
  let needsEntry := anyKeyword ql entryKeywords
  let hasK := decide (("Knowledge & Skills").toList ∈ a.test_type)
  let hasP := decide (("Personality & Behavior").toList ∈ a.test_type)
  let hasB := decide (("Biodata & Situational Judgement").toList ∈ a.test_type)
  let hasA := decide (("Ability & Aptitude").toList ∈ a.test_type)
  let isEntry := a.job_levels.any
    (fun lv => containsS lv (("Entry").toList) || containsS lv (("Graduate").toList))
  (if needsK && hasK then (1 : ℚ) else 0) +
  (if needsP && hasP then (1 : ℚ) else 0) +
  (if needsB && hasB then (1 : ℚ) else 0) +
  (if needsEntry && isEntry then (1 : ℚ)/2 else 0) +
  (if needsEntry && hasA then (1 : ℚ)/2 else 0)

/-- A Stage-1 candidate: the dictionaries appended by `_stage1_retrieval`. -/
structure Candidate where
  url : Str
  embedding_similarity : ℚ
  assessment : Assessment
deriving DecidableEq

/-- A Stage-2 scored entry: the dictionaries appended by `_stage2_rerank`. -/
structure ScoredEntry where
  url : Str
  name : Str
  score : ℚ
  training_score : ℚ
  name_score : ℚ
  test_type_score : ℚ
  embedding_score : ℚ
deriving DecidableEq

/-- Scoring of one candidate inside `_stage2_rerank`:
`0.60·min(training/10, 1) + 0.20·name + 0.15·test_type + 0.05·embedding`. -/
def scoreCandidate (idx : TrainingIndex) (query : Str) (c : Candidate) : ScoredEntry :=
  let ts := compute_training_score idx query c.url
  let ns := compute_name_overlap query c.assessment
  let tts := compute_test_type_alignment query c.assessment
  let es := c.embedding_similarity
  { url := c.url
    name := c.assessment.name
    score := (3/5) * min (ts / 10) 1 + (1/5) * ns + (3/20) * tts + (1/20) * es
    training_score := ts
    name_score := ns
    test_type_score := tts
    embedding_score := es }

/-- Insertion step of a stable descending sort on a rational key:
the new element `x` (earlier in the original order) goes in front of the
first element whose key does not exceed `x`'s. -/
def insertDescBy {α : Type} (key : α → ℚ) (x : α) : List α → List α
  | [] => [x]
  | y :: ys => if key y ≤ key x then x :: y :: ys else y :: insertDescBy key x ys

/-- Stable descending sort by a rational key.  Python's
`list.sort(key=..., reverse=True)` is specified to be a stable sort into
descending key order; a stable sorted permutation is unique, so this
insertion sort computes exactly the list the source produces. -/
def sortDescBy {α : Type} (key : α → ℚ) : List α → List α
  | [] => []
  | x :: xs => insertDescBy key x (sortDescBy key xs)

/-- `Recommender._stage2_rerank`: score, sort stably by descending
`score`, truncate to `top_k`. -/
def stage2_rerank (idx : TrainingIndex) (query : Str)
    (candidates : List Candidate) (top_k : Nat) : List ScoredEntry :=
  (sortDescBy ScoredEntry.score (candidates.map (scoreCandidate idx query))).take top_k

/-- Lookup in `self.url_to_assessment = {a['url']: a for a in assessments}`:
Python dict comprehensions keep the last record for a repeated url. -/
def lookupUrl (catalog : List Assessment) (url : Str) : Option Assessment :=
  catalog.reverse.find? (fun a => decide (a.url = url))

/-- Body of the `_stage1_retrieval` loop for one `(index, distance)` pair
returned by the FAISS search: the index is resolved through
`metadata['assessment_urls']` and `self.url_to_assessment[url]`, both plain
indexing operations whose failure (`IndexError` / `KeyError`) aborts the
call — hence the `Option`.  Similarity is `1 - distance`. -/
def resolveCandidate (metaUrls : List Str) (catalog : List Assessment)
    (r : Nat × ℚ) : Option Candidate := do
  let url ← metaUrls[r.1]?
  let a ← lookupUrl catalog url
  pure { url := url, embedding_similarity := 1 - r.2, assessment := a }

/-- The `for idx, dist in zip(...)` loop of `_stage1_retrieval`: resolve
the pairs in order, aborting on the first dangling index or url. -/
def resolveAll (metaUrls : List Str) (catalog : List Assessment) :
    List (Nat × ℚ) → Option (List Candidate)
  | [] => some []
  | r :: rest => do
    let c ← resolveCandidate metaUrls catalog r
    let cs ← resolveAll metaUrls catalog rest
    pure (c :: cs)

/-- `Recommender._stage1_retrieval` after the FAISS search. -/
def stage1_retrieval (metaUrls : List Str) (catalog : List Assessment)
    (results : List (Nat × ℚ)) : Option (List Candidate) :=
  resolveAll metaUrls catalog results

/-- `Recommender.recommend`.  `embOut` is the single outcome of the
embedding collaborator (the one `client.embeddings.create` call plus the
local FAISS search): `none` when the collaborator is unreachable or its
response is unusable, in which case the exception propagates uncaught out
of `recommend` — there is no retry and no fallback inside the engine. -/
def recommend (idx : TrainingIndex) (metaUrls : List Str)
    (catalog : List Assessment) (embOut : Option (List (Nat × ℚ)))
    (query : Str) (top_k : Nat) : Option (List ScoredEntry) :=
  match embOut with
  | none => none
  | some results =>
    (stage1_retrieval metaUrls catalog results).map
      (fun cands => stage2_rerank idx query cands top_k)

/-- Digits of the first number in a duration string
(`re.findall` + first match in `api/main.py`). -/
def firstNumber (s : Str) : Nat :=
  match s.dropWhile (fun c => !c.isDigit) with
  | [] => 0
  | rest => ((rest.takeWhile Char.isDigit).foldl (fun n c => n * 10 + (c.toNat - 48)) 0)

/-- Response item assembled by the `/recommend` endpoint. -/
structure ApiAssessment where
  url : Str
  name : Str
  adaptive_support : Str
  description : Str
  duration : Nat
  remote_support : Str
  test_type : List Str
deriving DecidableEq

/-- Response-formatting loop of the `/recommend` endpoint
(`api/main.py`): each reranked entry's url is looked up with
`url_to_assessment.get(r['url'], {})`, and an entry whose url is missing
from the catalog is skipped with a printed warning instead of failing. -/
def formatResults (apiCatalog : List Assessment) (results : List ScoredEntry) :
    List ApiAssessment :=
  results.filterMap (fun r =>
    match lookupUrl apiCatalog r.url with
    | none => none
    | some a =>
      some { url := r.url
             name := r.name
             adaptive_support := a.adaptive_support
             description := a.description
             duration := firstNumber a.duration
             remote_support := a.remote_support
             test_type := a.test_type })

/-- The `/recommend` endpoint end to end: the engine call followed by the
formatting loop.  `none` models the uncaught exception turned into an
HTTP 500 by the generic handler, i.e. an aborted call. -/
def apiRecommend (idx : TrainingIndex) (metaUrls : List Str)
    (catalog apiCatalog : List Assessment) (embOut : Option (List (Nat × ℚ)))
    (query : Str) (top_k : Nat) : Option (List ApiAssessment) :=
  (recommend idx metaUrls catalog embOut query top_k).map (formatResults apiCatalog)

section SortLemmas

variable {α : Type} (key : α → ℚ)

theorem mem_insertDescBy {x a : α} {l : List α} :
    a ∈ insertDescBy key x l ↔ a = x ∨ a ∈ l := by
  induction l with
  | nil => simp [insertDescBy]
  | cons y ys ih =>
    by_cases h : key y ≤ key x
    · simp [insertDescBy, h]
    · simp [insertDescBy, h, ih]
      tauto

theorem insertDescBy_perm (x : α) (l : List α) :
    (insertDescBy key x l).Perm (x :: l) := by
  induction l with
  | nil => simp [insertDescBy]
  | cons y ys ih =>
    by_cases h : key y ≤ key x
    · simp [insertDescBy, h]
    · simp only [insertDescBy, if_neg h]
      exact (ih.cons y).trans (List.Perm.swap x y ys)

theorem sortDescBy_perm (l : List α) : (sortDescBy key l).Perm l := by
  induction l with
  | nil => simp [sortDescBy]
  | cons x xs ih =>
    exact (insertDescBy_perm key x (sortDescBy key xs)).trans (ih.cons x)

theorem pairwise_insertDescBy {x : α} {l : List α}
    (hl : l.Pairwise (fun a b => key b ≤ key a)) :
    (insertDescBy key x l).Pairwise (fun a b => key b ≤ key a) := by
  induction l with
  | nil => simp [insertDescBy]
  | cons y ys ih =>
    rcases List.pairwise_cons.1 hl with ⟨hy, hys⟩
    by_cases h : key y ≤ key x
    · simp only [insertDescBy, if_pos h]
      refine List.pairwise_cons.2 ⟨?_, hl⟩
      intro b hb
      rcases List.mem_cons.1 hb with rfl | hb
      · exact h
      · exact le_trans (hy b hb) h
    · simp only [insertDescBy, if_neg h]
      refine List.pairwise_cons.2 ⟨?_, ih hys⟩
      intro b hb
      rcases (mem_insertDescBy key).1 hb with rfl | hb
      · exact le_of_not_le h
      · exact hy b hb

theorem pairwise_sortDescBy (l : List α) :
    (sortDescBy key l).Pairwise (fun a b => key b ≤ key a) := by
  induction l with
  | nil => simp [sortDescBy]
  | cons x xs ih => exact pairwise_insertDescBy key ih

theorem filter_insertDescBy (c : ℚ) (x : α) (l : List α) :
    (insertDescBy key x l).filter (fun e => decide (key e = c)) =
      ((x :: l).filter (fun e => decide (key e = c))) := by
  induction l with
  | nil => simp [insertDescBy]
  | cons y ys ih =>
    by_cases h : key y ≤ key x
    · simp [insertDescBy, h]
    · rw [insertDescBy, if_neg h]
      by_cases hy : key y = c
      · by_cases hx : key x = c
        · exact absurd (hx.trans hy.symm).ge h
        · simp [List.filter_cons, hx, hy, ih]
      · simp [List.filter_cons, hy, ih]

theorem filter_sortDescBy (c : ℚ) (l : List α) :
    (sortDescBy key l).filter (fun e => decide (key e = c)) =
      l.filter (fun e => decide (key e = c)) := by
  induction l with
  | nil => simp [sortDescBy]
  | cons x xs ih =>
    calc (insertDescBy key x (sortDescBy key xs)).filter (fun e => decide (key e = c))
        = ((x :: sortDescBy key xs).filter (fun e => decide (key e = c))) :=
          filter_insertDescBy key c x _
      _ = ((x :: xs).filter (fun e => decide (key e = c))) := by
          by_cases hx : key x = c <;> simp [List.filter_cons, hx, ih]

theorem length_sortDescBy (l : List α) : (sortDescBy key l).length = l.length :=
  (sortDescBy_perm key l).length_eq

theorem sortDescBy_head_max {l t : List α} {h : α}
    (hs : sortDescBy key l = h :: t) : ∀ x ∈ l, key x ≤ key h := by
  intro x hx
  have hx' : x ∈ h :: t := hs ▸ (sortDescBy_perm key l).mem_iff.2 hx
  rcases List.mem_cons.1 hx' with rfl | hx'
  · exact le_refl _
  · have hp := pairwise_sortDescBy key l
    rw [hs] at hp
    exact (List.pairwise_cons.1 hp).1 x hx'

end SortLemmas

section StringLemmas

theorem isPrefixOfB_append {n h t : Str} (hp : isPrefixOfB n h = true) :
    isPrefixOfB n (h ++ t) = true := by
  induction n generalizing h with
  | nil => simp [isPrefixOfB]
  | cons a as ih =>
    cases h with
    | nil => simp [isPrefixOfB] at hp
    | cons b bs =>
      simp only [isPrefixOfB, Bool.and_eq_true, decide_eq_true_eq] at hp
      simp only [List.cons_append, isPrefixOfB, Bool.and_eq_true, decide_eq_true_eq]
      exact ⟨hp.1, ih hp.2⟩

theorem isInfixOfB_nil_left (t : Str) : isInfixOfB [] t = true := by
  cases t with
  | nil => rfl
  | cons c cs => simp [isInfixOfB, isPrefixOfB]

theorem isInfixOfB_append {n h t : Str} (hi : isInfixOfB n h = true) :
    isInfixOfB n (h ++ t) = true := by
  induction h with
  | nil =>
    cases n with
    | nil => exact isInfixOfB_nil_left t
    | cons a as => simp [isInfixOfB, List.isEmpty] at hi
  | cons c cs ih =>
    simp only [isInfixOfB, Bool.or_eq_true] at hi
    simp only [List.cons_append, isInfixOfB, Bool.or_eq_true]
    rcases hi with hp | hi
    · exact Or.inl (isPrefixOfB_append hp)
    · exact Or.inr (ih hi)

/-- Extending the searched string on the right preserves substring hits. -/
theorem containsS_append {hay ext needle : Str} (h : containsS hay needle = true) :
    containsS (hay ++ ext) needle = true :=
  isInfixOfB_append h

theorem anyKeyword_append {ql ext : Str} {kws : List Str}
    (h : anyKeyword ql kws = true) : anyKeyword (ql ++ ext) kws = true := by
  simp only [anyKeyword, List.any_eq_true] at h ⊢
  rcases h with ⟨kw, hkw, hc⟩
  exact ⟨kw, hkw, containsS_append hc⟩

end StringLemmas

section ScoreBoundLemmas

theorem ite_nonneg_of_nonneg {b : Bool} {x : ℚ} (hx : 0 ≤ x) :
    0 ≤ if b then x else 0 := by
  cases b <;> simp [hx]

theorem ite_le_of_le_one {b : Bool} {x : ℚ} (hx : x ≤ 1) :
    (if b then x else 0) ≤ 1 := by
  cases b <;> simp [hx]

theorem ite_le_ite_of_imp {b c : Bool} {x : ℚ} (hx : 0 ≤ x)
    (h : b = true → c = true) :
    (if b then x else 0) ≤ if c then x else 0 := by
  cases b with
  | false => exact ite_nonneg_of_nonneg hx
  | true => rw [h rfl]

theorem name_overlap_nonneg (q : Str) (a : Assessment) :
    0 ≤ compute_name_overlap q a := by
  simp only [compute_name_overlap]
  split_ifs with h
  · exact le_refl 0
  · exact le_min (div_nonneg (by positivity) (by positivity)) zero_le_one

theorem name_overlap_le_one (q : Str) (a : Assessment) :
    compute_name_overlap q a ≤ 1 := by
  simp only [compute_name_overlap]
  split_ifs with h
  · norm_num
  · exact min_le_right _ _

theorem name_overlap_of_no_terms {q : Str} (a : Assessment)
    (h : extract_key_terms q = ∅) : compute_name_overlap q a = 0 := by
  simp only [compute_name_overlap, if_pos h]

theorem alignment_nonneg (q : Str) (a : Assessment) :
    0 ≤ compute_test_type_alignment q a := by
  simp only [compute_test_type_alignment]
  have h2 : (0:ℚ) ≤ 1/2 := by norm_num
  have h1 : (0:ℚ) ≤ 1 := by norm_num
  exact add_nonneg (add_nonneg (add_nonneg (add_nonneg
    (ite_nonneg_of_nonneg h1) (ite_nonneg_of_nonneg h1)) (ite_nonneg_of_nonneg h1))
    (ite_nonneg_of_nonneg h2)) (ite_nonneg_of_nonneg h2)

end ScoreBoundLemmas

section TrainingScoreLemmas

theorem scoreStep_bounds (ql url : Str) (acc : ℚ × ℚ) (e : Str × List Str)
    (h1 : 0 ≤ acc.1) (h2 : acc.1 ≤ 8) (h3 : 0 ≤ acc.2) (h4 : acc.2 ≤ 6) :
    0 ≤ (scoreStep ql url acc e).1 ∧ (scoreStep ql url acc e).1 ≤ 8 ∧
    0 ≤ (scoreStep ql url acc e).2 ∧ (scoreStep ql url acc e).2 ≤ 6 := by
  simp only [scoreStep]
  split_ifs with hm hsub hemp hun
  · exact ⟨le_trans h1 (le_max_left _ _), max_le h2 (by norm_num), h3, h4⟩
  · exact ⟨h1, h2, h3, h4⟩
  · exact ⟨h1, h2, h3, h4⟩
  · refine ⟨h1, h2, le_trans h3 (le_max_left _ _), max_le h4 ?_⟩
    have hq : (splitWs ql).toFinset ≠ ∅ := fun h => hemp (Or.inl h)
    have ht : (splitWs e.1).toFinset ≠ ∅ := fun h => hemp (Or.inr h)
    have hqpos : 0 < ((splitWs ql).toFinset.card : ℚ) := by
      exact_mod_cast Finset.card_pos.2 (Finset.nonempty_iff_ne_empty.2 hq)
    have hupos : 0 < (((splitWs ql).toFinset ∪ (splitWs e.1).toFinset).card : ℚ) := by
      exact_mod_cast Finset.card_pos.2 (Finset.nonempty_iff_ne_empty.2 hun)
    have hr : (((splitWs ql).toFinset ∩ (splitWs e.1).toFinset).card : ℚ) /
        (((splitWs ql).toFinset ∪ (splitWs e.1).toFinset).card : ℚ) ≤ 1 := by
      rw [div_le_one hupos]
      exact_mod_cast Finset.card_le_card
        (le_trans Finset.inter_subset_left Finset.subset_union_left)
    have hc : (((splitWs ql).toFinset ∩ (splitWs e.1).toFinset).card : ℚ) /
        ((splitWs ql).toFinset.card : ℚ) ≤ 1 := by
      rw [div_le_one hqpos]
      exact_mod_cast Finset.card_le_card Finset.inter_subset_left
    nlinarith [hr, hc]
  · exact ⟨h1, h2, h3, h4⟩

theorem foldl_scoreStep_bounds (ql url : Str) (entries : List (Str × List Str)) :
    ∀ acc : ℚ × ℚ, 0 ≤ acc.1 → acc.1 ≤ 8 → 0 ≤ acc.2 → acc.2 ≤ 6 →
      0 ≤ (entries.foldl (scoreStep ql url) acc).1 ∧
      (entries.foldl (scoreStep ql url) acc).1 ≤ 8 ∧
      0 ≤ (entries.foldl (scoreStep ql url) acc).2 ∧
      (entries.foldl (scoreStep ql url) acc).2 ≤ 6 := by
  induction entries with
  | nil => intro acc h1 h2 h3 h4; exact ⟨h1, h2, h3, h4⟩
  | cons e rest ih =>
    intro acc h1 h2 h3 h4
    obtain ⟨g1, g2, g3, g4⟩ := scoreStep_bounds ql url acc e h1 h2 h3 h4
    exact ih _ g1 g2 g3 g4

theorem trainingBase_nonneg (idx : TrainingIndex) (ql url : Str) :
    0 ≤ trainingBase idx ql url := by
  simp only [trainingBase]
  obtain ⟨g1, _, g3, _⟩ :=
    foldl_scoreStep_bounds ql url idx.query_to_urls (0, 0)
      (le_refl 0) (by norm_num) (le_refl 0) (by norm_num)
  have : (0:ℚ) ≤ max (idx.query_to_urls.foldl (scoreStep ql url) (0, 0)).1
      (idx.query_to_urls.foldl (scoreStep ql url) (0, 0)).2 :=
    le_trans g1 (le_max_left _ _)
  split_ifs <;> linarith

theorem trainingBase_le (idx : TrainingIndex) (ql url : Str) :
    trainingBase idx ql url ≤ 17/2 := by
  simp only [trainingBase]
  obtain ⟨_, g2, _, g4⟩ :=
    foldl_scoreStep_bounds ql url idx.query_to_urls (0, 0)
      (le_refl 0) (by norm_num) (le_refl 0) (by norm_num)
  have : max (idx.query_to_urls.foldl (scoreStep ql url) (0, 0)).1
      (idx.query_to_urls.foldl (scoreStep ql url) (0, 0)).2 ≤ 8 :=
    max_le g2 (by linarith)
  split_ifs <;> linarith

theorem training_score_nonneg (idx : TrainingIndex) (query url : Str) :
    0 ≤ compute_training_score idx query url := by
  simp only [compute_training_score]
  split_ifs
  · norm_num
  · exact trainingBase_nonneg idx (normQ query) url

theorem training_score_le_ten (idx : TrainingIndex) (query url : Str) :
    compute_training_score idx query url ≤ 10 := by
  simp only [compute_training_score]
  split_ifs
  · exact le_refl 10
  · exact le_trans (trainingBase_le idx (normQ query) url) (by norm_num)

end TrainingScoreLemmas

section TrainingIndexLemmas

theorem lookupQ_addRow_self (m : List (Str × List Str)) (q u : Str) :
    lookupQ (addRow m q u) q = some (lookupGet m q ++ [u]) := by
  induction m with
  | nil => simp [addRow, lookupQ, lookupGet]
  | cons kv rest ih =>
    obtain ⟨k, vs⟩ := kv
    by_cases h : k = q
    · subst h
      simp [addRow, lookupQ, lookupGet]
    · simp [addRow, lookupQ, h, ih, lookupGet]

theorem lookupQ_addRow_ne (m : List (Str × List Str)) (q u k : Str) (h : k ≠ q) :
    lookupQ (addRow m q u) k = lookupQ m k := by
  induction m with
  | nil => simp [addRow, lookupQ, Ne.symm h]
  | cons kv rest ih =>
    obtain ⟨k', vs⟩ := kv
    by_cases h' : k' = q
    · subst h'
      simp [addRow, lookupQ, Ne.symm h]
    · simp [addRow, lookupQ, h', ih]

theorem mem_lookupGet_addRow {m : List (Str × List Str)} {k u0 : Str}
    (q u : Str) (h : u0 ∈ lookupGet m k) : u0 ∈ lookupGet (addRow m q u) k := by
  by_cases hk : k = q
  · subst hk
    rw [lookupGet, lookupQ_addRow_self]
    simp only [Option.getD_some, List.mem_append]
    exact Or.inl h
  · rw [lookupGet, lookupQ_addRow_ne m q u k hk]
    exact h

theorem mem_foldl_addRow (rows : List (Str × Str)) (q0 u0 : Str) :
    ∀ m : List (Str × List Str),
      ((q0, u0) ∈ rows ∨ u0 ∈ lookupGet m (normQ q0)) →
      u0 ∈ lookupGet (rows.foldl (fun m r => addRow m (normQ r.1) r.2) m) (normQ q0) := by
  induction rows with
  | nil =>
    intro m h
    rcases h with h | h
    · cases h
    · exact h
  | cons r rs ih =>
    intro m h
    rw [List.foldl_cons]
    apply ih
    rcases h with h | h
    · rcases List.mem_cons.1 h with heq | hmem
      · right
        rw [← heq] at *
        rw [lookupGet, lookupQ_addRow_self]
        simp
      · exact Or.inl hmem
    · exact Or.inr (mem_lookupGet_addRow _ _ h)

theorem mem_build_training_index {rows : List (Str × Str)} {q0 u0 : Str}
    (h : (q0, u0) ∈ rows) :
    u0 ∈ lookupGet (build_training_index rows).query_to_urls (normQ q0) :=
  mem_foldl_addRow rows q0 u0 [] (Or.inl h)

theorem exactMatchB_of_mem {idx : TrainingIndex} {ql url : Str}
    (h : url ∈ lookupGet idx.query_to_urls ql) :
    exactMatchB idx ql url = true := by
  rw [exactMatchB]
  rw [lookupGet] at h
  cases hl : lookupQ idx.query_to_urls ql with
  | none => rw [hl] at h; simp at h
  | some vs =>
    rw [hl] at h
    simp only [Option.getD_some] at h
    simpa using h

end TrainingIndexLemmas

section Stage1Lemmas

theorem resolveCandidate_none {metaUrls : List Str} {catalog : List Assessment}
    {i : Nat} {d : ℚ} {u : Str}
    (hg : metaUrls[i]? = some u) (hl : lookupUrl catalog u = none) :
    resolveCandidate metaUrls catalog (i, d) = none := by
  simp [resolveCandidate, hg, hl]

theorem resolveCandidate_sim {metaUrls : List Str} {catalog : List Assessment}
    {r : Nat × ℚ} {c : Candidate}
    (h : resolveCandidate metaUrls catalog r = some c) :
    c.embedding_similarity = 1 - r.2 := by
  cases hg : metaUrls[r.1]? with
  | none => simp [resolveCandidate, hg] at h
  | some u =>
    cases hl : lookupUrl catalog u with
    | none => simp [resolveCandidate, hg, hl] at h
    | some a =>
      simp [resolveCandidate, hg, hl] at h
      subst h
      rfl

theorem resolveAll_eq_none_of_mem {metaUrls : List Str} {catalog : List Assessment}
    {rs : List (Nat × ℚ)} {r : Nat × ℚ}
    (hr : r ∈ rs) (hf : resolveCandidate metaUrls catalog r = none) :
    resolveAll metaUrls catalog rs = none := by
  induction rs with
  | nil => cases hr
  | cons y ys ih =>
    rcases List.mem_cons.1 hr with rfl | h'
    · simp [resolveAll, hf]
    · cases hfy : resolveCandidate metaUrls catalog y <;>
        simp [resolveAll, hfy, ih h']

theorem resolveAll_some_forall {metaUrls : List Str} {catalog : List Assessment}
    {rs : List (Nat × ℚ)} {cands : List Candidate}
    (h : resolveAll metaUrls catalog rs = some cands) :
    ∀ c ∈ cands, ∃ r ∈ rs, resolveCandidate metaUrls catalog r = some c := by
  induction rs generalizing cands with
  | nil =>
    simp only [resolveAll, Option.some.injEq] at h
    subst h
    simp
  | cons y ys ih =>
    cases hfy : resolveCandidate metaUrls catalog y with
    | none => simp [resolveAll, hfy] at h
    | some c0 =>
      cases hys : resolveAll metaUrls catalog ys with
      | none => simp [resolveAll, hfy, hys] at h
      | some cs =>
        simp [resolveAll, hfy, hys] at h
        subst h
        intro c hc
        rcases List.mem_cons.1 hc with rfl | hc'
        · exact ⟨y, List.mem_cons_self y ys, hfy⟩
        · rcases ih hys c hc' with ⟨r, hr, hres⟩
          exact ⟨r, List.mem_cons_of_mem y hr, hres⟩

theorem stage1_none_of_dangling {metaUrls : List Str} {catalog : List Assessment}
    {rs : List (Nat × ℚ)} {i : Nat} {d : ℚ} {u : Str}
    (hm : (i, d) ∈ rs) (hg : metaUrls[i]? = some u)
    (hl : lookupUrl catalog u = none) :
    stage1_retrieval metaUrls catalog rs = none :=
  resolveAll_eq_none_of_mem hm (resolveCandidate_none hg hl)

theorem stage1_sim_bounds {metaUrls : List Str} {catalog : List Assessment}
    {rs : List (Nat × ℚ)} {cands : List Candidate}
    (h : stage1_retrieval metaUrls catalog rs = some cands)
    (hd : ∀ r ∈ rs, 0 ≤ r.2 ∧ r.2 ≤ 4) :
    ∀ c ∈ cands, -3 ≤ c.embedding_similarity ∧ c.embedding_similarity ≤ 1 := by
  intro c hc
  rcases resolveAll_some_forall h c hc with ⟨r, hr, hres⟩
  have hsim := resolveCandidate_sim hres
  obtain ⟨h0, h4⟩ := hd r hr
  constructor <;> rw [hsim] <;> linarith

end Stage1Lemmas

/-- C2: if the training set contains a pair whose normalised (lowercased,
trimmed) query equals the normalised input query and whose url equals the
given url, then `_compute_training_score` returns exactly 10. -/
theorem C2_exact_match_scores_ten :
    ∀ (rows : List (Str × Str)) (query url : Str),
      (∃ p ∈ rows, normQ p.1 = normQ query ∧ p.2 = url) →
      compute_training_score (build_training_index rows) query url = 10 := by
  intro rows query url h
  rcases h with ⟨p, hp, hnorm, hu⟩
  have hm : url ∈ lookupGet (build_training_index rows).query_to_urls (normQ query) := by
    rw [← hnorm, ← hu]
    exact mem_build_training_index (by simpa using hp)
  simp only [compute_training_score, if_pos (exactMatchB_of_mem hm)]

/-- Witness for C2 at a concrete training set: the stored query differs
from the input query only in case and surrounding whitespace. -/
theorem C2_exact_match_witness :
    (∃ p ∈ [((" Java Developer Role ").toList, ("u1").toList)],
      normQ p.1 = normQ (("java developer ROLE").toList) ∧ p.2 = ("u1").toList) ∧
    compute_training_score
      (build_training_index [((" Java Developer Role ").toList, ("u1").toList)])
      (("java developer ROLE").toList) (("u1").toList) = 10 :=
  ⟨⟨_, List.mem_singleton.2 rfl, by decide, rfl⟩,
    C2_exact_match_scores_ten _ _ _ ⟨_, List.mem_singleton.2 rfl, by decide, rfl⟩⟩

/-- C4: the reranker output has length `min top_k |candidates|`, is sorted
by descending final score, and the sort is stable: for every score value,
the entries attaining it appear in the sorted list exactly in their
original candidate order. -/
theorem C4_rerank_output_shape :
    ∀ (idx : TrainingIndex) (query : Str) (cands : List Candidate) (top_k : Nat),
      (stage2_rerank idx query cands top_k).length = min top_k cands.length ∧
      (stage2_rerank idx query cands top_k).Pairwise (fun a b => b.score ≤ a.score) ∧
      ∀ c : ℚ,
        ((sortDescBy ScoredEntry.score (cands.map (scoreCandidate idx query))).filter
          (fun e => decide (e.score = c))) =
        ((cands.map (scoreCandidate idx query)).filter (fun e => decide (e.score = c))) := by
  intro idx query cands top_k
  refine ⟨?_, ?_, fun c => filter_sortDescBy ScoredEntry.score c _⟩
  · rw [stage2_rerank, List.length_take, length_sortDescBy, List.length_map]
  · exact List.Pairwise.sublist (List.take_sublist _ _)
      (pairwise_sortDescBy ScoredEntry.score _)

/-- C6: `_compute_name_overlap` always lies in [0, 1] and is exactly 0
whenever the query has no key terms left after stop-word removal and the
discarding of tokens of length at most 2, so its division never divides
by zero. -/
theorem C6_name_overlap_bounded :
    ∀ (query : Str) (a : Assessment),
      0 ≤ compute_name_overlap query a ∧ compute_name_overlap query a ≤ 1 ∧
      (extract_key_terms query = ∅ → compute_name_overlap query a = 0) :=
  fun q a => ⟨name_overlap_nonneg q a, name_overlap_le_one q a,
    fun h => name_overlap_of_no_terms a h⟩

/-- Witness for C6 on a stop-word-only query. -/
theorem C6_name_overlap_witness :
    extract_key_terms (("the").toList) = ∅ ∧
    compute_name_overlap (("the").toList)
      ⟨("u1").toList, ("Java Test").toList, [], [], [], [], [], []⟩ = 0 :=
  ⟨by decide, (C6_name_overlap_bounded (("the").toList)
    ⟨("u1").toList, ("Java Test").toList, [], [], [], [], [], []⟩).2.2 (by decide)⟩

/-- C7: extending the query string never decreases
`_compute_test_type_alignment`: every `needs` flag is a monotone substring
test and every award is non-negative, so adding a keyword that turns on an
intent can only add points. -/
theorem C7_alignment_monotone :
    ∀ (q ext : Str) (a : Assessment),
      compute_test_type_alignment q a ≤ compute_test_type_alignment (q ++ ext) a := by
  intro q ext a
  simp only [compute_test_type_alignment]
  have hmap : lowerS (q ++ ext) = lowerS q ++ lowerS ext := List.map_append _ _ _
  rw [hmap]
  have hmono : ∀ (kws : List Str) (b : Bool),
      (anyKeyword (lowerS q) kws && b) = true →
      (anyKeyword (lowerS q ++ lowerS ext) kws && b) = true := by
    intro kws b hb
    rw [Bool.and_eq_true] at hb ⊢
    exact ⟨anyKeyword_append hb.1, hb.2⟩
  refine add_le_add (add_le_add (add_le_add (add_le_add ?_ ?_) ?_) ?_) ?_ <;>
    exact ite_le_ite_of_imp (by norm_num) (hmono _ _)

/-- C8: when the training source cannot be read, `_build_training_index`
degrades to the empty index, on which every training score evaluates to 0
(the flat baseline is also 0 because no url is in the training set). -/
theorem C8_training_degrades_to_empty :
    build_training_index_safe none = emptyTrainingIndex ∧
    ∀ (query url : Str), compute_training_score emptyTrainingIndex query url = 0 := by
  refine ⟨rfl, fun query url => ?_⟩
  simp [compute_training_score, exactMatchB, emptyTrainingIndex, lookupQ, trainingBase]

/-- C9: when the embedding collaborator fails, the whole `recommend` call
fails: the model makes exactly one embedding request, and a failed request
propagates to `none` — never a successful empty recommendation list. -/
theorem C9_embedding_failure_aborts :
    ∀ (idx : TrainingIndex) (metaUrls : List Str) (catalog : List Assessment)
      (query : Str) (top_k : Nat),
      recommend idx metaUrls catalog none query top_k = none :=
  fun _ _ _ _ _ => rfl

/-- C3: every entry of the reranked output scores some input candidate by
`0.60·min(trainingScore/10, 1) + 0.20·nameOverlap + 0.15·categoryAlignment
+ 0.05·embeddingSimilarity`, the embedding similarity being the candidate's
Stage-1 value unchanged. -/
theorem C3_final_score_formula :
    ∀ (idx : TrainingIndex) (query : Str) (cands : List Candidate) (top_k : Nat)
      (e : ScoredEntry), e ∈ stage2_rerank idx query cands top_k →
      ∃ c ∈ cands, e.url = c.url ∧ e.embedding_score = c.embedding_similarity ∧
        e.score = (3/5) * min (compute_training_score idx query c.url / 10) 1 +
          (1/5) * compute_name_overlap query c.assessment +
          (3/20) * compute_test_type_alignment query c.assessment +
          (1/20) * c.embedding_similarity := by
  intro idx query cands top_k e he
  have h1 : e ∈ sortDescBy ScoredEntry.score (cands.map (scoreCandidate idx query)) :=
    List.take_subset _ _ he
  have h2 : e ∈ cands.map (scoreCandidate idx query) :=
    ((sortDescBy_perm ScoredEntry.score _).mem_iff).1 h1
  rcases List.mem_map.1 h2 with ⟨c, hc, rfl⟩
  exact ⟨c, hc, rfl, rfl, rfl⟩

/-- Witness for C3 on a singleton candidate list. -/
theorem C3_formula_witness :
    scoreCandidate emptyTrainingIndex []
        ⟨("u1").toList, 0, ⟨("u1").toList, [], [], [], [], [], [], []⟩⟩ ∈
      stage2_rerank emptyTrainingIndex []
        [⟨("u1").toList, 0, ⟨("u1").toList, [], [], [], [], [], [], []⟩⟩] 1 ∧
    ∃ c ∈ [(⟨("u1").toList, 0, ⟨("u1").toList, [], [], [], [], [], [], []⟩⟩ : Candidate)],
      (scoreCandidate emptyTrainingIndex []
        ⟨("u1").toList, 0, ⟨("u1").toList, [], [], [], [], [], [], []⟩⟩).url = c.url ∧
      (scoreCandidate emptyTrainingIndex []
        ⟨("u1").toList, 0, ⟨("u1").toList, [], [], [], [], [], [], []⟩⟩).embedding_score =
        c.embedding_similarity ∧
      (scoreCandidate emptyTrainingIndex []
        ⟨("u1").toList, 0, ⟨("u1").toList, [], [], [], [], [], [], []⟩⟩).score =
        (3/5) * min (compute_training_score emptyTrainingIndex [] c.url / 10) 1 +
          (1/5) * compute_name_overlap [] c.assessment +
          (3/20) * compute_test_type_alignment [] c.assessment +
          (1/20) * c.embedding_similarity := by
  have hm : scoreCandidate emptyTrainingIndex []
      ⟨("u1").toList, 0, ⟨("u1").toList, [], [], [], [], [], [], []⟩⟩ ∈
      stage2_rerank emptyTrainingIndex []
        [⟨("u1").toList, 0, ⟨("u1").toList, [], [], [], [], [], [], []⟩⟩] 1 := by
    simp [stage2_rerank, sortDescBy, insertDescBy]
  exact ⟨hm, C3_final_score_formula _ _ _ _ _ hm⟩

/-- C10: training scores always lie in [0, 10]: the exact-match path gives
exactly 10, every other path at most 8.5, and therefore the
`min(trainingScore/10, 1)` cap of the reranker never truncates. -/
theorem C10_training_score_range :
    ∀ (idx : TrainingIndex) (query url : Str),
      0 ≤ compute_training_score idx query url ∧
      compute_training_score idx query url ≤ 10 ∧
      (exactMatchB idx (normQ query) url = true →
        compute_training_score idx query url = 10) ∧
      (exactMatchB idx (normQ query) url = false →
        compute_training_score idx query url ≤ 17/2) ∧
      min (compute_training_score idx query url / 10) 1 =
        compute_training_score idx query url / 10 := by
  intro idx query url
  refine ⟨training_score_nonneg idx query url, training_score_le_ten idx query url,
    ?_, ?_, ?_⟩
  · intro h
    simp [compute_training_score, h]
  · intro h
    simp only [compute_training_score, h, Bool.false_eq_true, if_false]
    exact trainingBase_le idx (normQ query) url
  · apply min_eq_left
    rw [div_le_one (by norm_num : (0:ℚ) < 10)]
    exact training_score_le_ten idx query url

/-- Witness for C10: an empty index takes the non-exact path and stays
below 8.5; a one-row index with a matching pair takes the exact path. -/
theorem C10_range_witness :
    (exactMatchB emptyTrainingIndex (normQ []) (("u1").toList) = false ∧
      compute_training_score emptyTrainingIndex [] (("u1").toList) ≤ 17/2) ∧
    (exactMatchB (build_training_index [([], ("u1").toList)]) (normQ [])
        (("u1").toList) = true ∧
      compute_training_score (build_training_index [([], ("u1").toList)]) []
        (("u1").toList) = 10) :=
  ⟨⟨rfl, (C10_training_score_range emptyTrainingIndex [] (("u1").toList)).2.2.2.1 rfl⟩,
    ⟨by decide, (C10_training_score_range (build_training_index [([], ("u1").toList)])
      [] (("u1").toList)).2.2.1 (by decide)⟩⟩

/-- C1 counterexample: a Stage-1 candidate url that is missing from the
recommender's catalog is not dropped — `self.url_to_assessment[url]`
raises `KeyError`, so Stage-1 and with it the whole `recommend` call abort
(`none`) instead of continuing. -/
theorem C1_dangling_id_counterexample :
    lookupUrl [] (("u1").toList) = none ∧
    stage1_retrieval [("u1").toList] [] [(0, 0)] = none ∧
    recommend emptyTrainingIndex [("u1").toList] [] (some [(0, 0)]) [] 1 = none := by
  refine ⟨rfl, rfl, rfl⟩

/-- C1 amended: ids dangling with respect to the API layer's catalog are
dropped from the response with a logged warning, the remaining entries
surviving in order; but a Stage-1 candidate url that is missing from the
recommender's own catalog raises `KeyError` and aborts the whole
`recommend` call. -/
theorem C1_dangling_id_amended :
    (∀ (apiCatalog : List Assessment) (results : List ScoredEntry),
      (formatResults apiCatalog results).map ApiAssessment.url =
        ((results.filter (fun r => (lookupUrl apiCatalog r.url).isSome)).map
          ScoredEntry.url)) ∧
    (∀ (idx : TrainingIndex) (metaUrls : List Str) (catalog : List Assessment)
      (rs : List (Nat × ℚ)) (query : Str) (top_k i : Nat) (d : ℚ) (u : Str),
      (i, d) ∈ rs → metaUrls[i]? = some u → lookupUrl catalog u = none →
      recommend idx metaUrls catalog (some rs) query top_k = none) := by
  constructor
  · intro apiCatalog results
    simp only [formatResults]
    induction results with
    | nil => rfl
    | cons r rest ih =>
      cases hl : lookupUrl apiCatalog r.url with
      | none => simp [List.filterMap_cons, hl, List.filter_cons, ih]
      | some a => simp [List.filterMap_cons, hl, List.filter_cons, ih]
  · intro idx metaUrls catalog rs query top_k i d u hm hg hl
    simp [recommend, stage1_none_of_dangling hm hg hl]

/-- Witness for C1's amended statement: a one-entry index whose only url
is missing from the catalog aborts the call. -/
theorem C1_dangling_id_witness :
    ((0, 0) : Nat × ℚ) ∈ [((0, 0) : Nat × ℚ)] ∧
    [("u1").toList][(0:Nat)]? = some (("u1").toList) ∧
    lookupUrl [] (("u1").toList) = none ∧
    recommend emptyTrainingIndex [("u1").toList] [] (some [(0, 0)]) [] 3 = none := by
  refine ⟨List.mem_singleton.2 rfl, rfl, rfl, ?_⟩
  exact C1_dangling_id_amended.2 emptyTrainingIndex [("u1").toList] []
    [(0, 0)] [] 3 0 0 (("u1").toList) (List.mem_singleton.2 rfl) rfl rfl

section JavaScenario

def javaQuery : Str := ("java developer role").toList

def javaUrl : Str := ("https://x/java-test").toList

def otherUrl : Str := ("https://y/other").toList

/-- Catalog record of the trained assessment in the end-to-end scenario;
its name and tags share nothing with the query. -/
def javaTarget : Assessment :=
  ⟨javaUrl, ("zzz").toList, [], [], [], [], [], []⟩

/-- A competing catalog record whose name repeats the query and which is
tagged Knowledge & Skills. -/
def javaOther : Assessment :=
  ⟨otherUrl, ("java developer role").toList, [],
    [("Knowledge & Skills").toList], [], [], [], []⟩

/-- The training set holding exactly the scenario pair. -/
def javaTrainingRow : List (Str × Str) := [(javaQuery, javaUrl)]

theorem java_training_ten :
    compute_training_score (build_training_index javaTrainingRow) javaQuery javaUrl
      = 10 := by
  have h : exactMatchB (build_training_index javaTrainingRow) (normQ javaQuery)
      javaUrl = true := by decide
  simp [compute_training_score, h]

theorem java_training_zero_of_ne {u : Str} (h : u ≠ javaUrl) :
    compute_training_score (build_training_index javaTrainingRow) javaQuery u
      = 0 := by
  have hidx : build_training_index javaTrainingRow =
      ⟨[(normQ javaQuery, [javaUrl])], [javaUrl]⟩ := rfl
  rw [hidx]
  simp [compute_training_score, exactMatchB, lookupQ, trainingBase, scoreStep, h]

theorem java_alignment_le_one (a : Assessment) :
    compute_test_type_alignment javaQuery a ≤ 1 := by
  simp only [compute_test_type_alignment]
  rw [show anyKeyword (lowerS javaQuery) behavioralKeywords = false from by decide,
    show anyKeyword (lowerS javaQuery) businessKeywords = false from by decide,
    show anyKeyword (lowerS javaQuery) entryKeywords = false from by decide]
  simp only [Bool.false_and, Bool.false_eq_true, if_false, add_zero]
  split_ifs <;> norm_num

end JavaScenario

/-- C5 counterexample: the training set contains the scenario pair, the
trained id is a Stage-1 candidate, the exact query is asked with
`top_k = 1` — yet the sole result is a different id, because a second
training pair for the same query also earns the exact-match score and wins
on name overlap and category alignment. -/
theorem C5_java_scenario_counterexample :
    (javaQuery, javaUrl) ∈ [(javaQuery, javaUrl), (javaQuery, otherUrl)] ∧
    (∃ cands, stage1_retrieval [otherUrl, javaUrl] [javaTarget, javaOther]
        [(0, 1), (1, 1)] = some cands ∧ ∃ c ∈ cands, c.url = javaUrl) ∧
    otherUrl ≠ javaUrl ∧
    (recommend (build_training_index [(javaQuery, javaUrl), (javaQuery, otherUrl)])
        [otherUrl, javaUrl] [javaTarget, javaOther] (some [(0, 1), (1, 1)])
        javaQuery 1).map (fun l => l.map ScoredEntry.url) = some [otherUrl] := by
  have hs : stage1_retrieval [otherUrl, javaUrl] [javaTarget, javaOther]
      [(0, 1), (1, 1)] =
      some [⟨otherUrl, 1 - 1, javaOther⟩, ⟨javaUrl, 1 - 1, javaTarget⟩] := rfl
  refine ⟨List.mem_cons_self _ _, ⟨_, hs, ⟨javaUrl, 1 - 1, javaTarget⟩, by simp, rfl⟩,
    by decide, ?_⟩
  have h10O : compute_training_score
      (build_training_index [(javaQuery, javaUrl), (javaQuery, otherUrl)])
      javaQuery otherUrl = 10 := by
    have h : exactMatchB
        (build_training_index [(javaQuery, javaUrl), (javaQuery, otherUrl)])
        (normQ javaQuery) otherUrl = true := by decide
    simp [compute_training_score, h]
  have h10T : compute_training_score
      (build_training_index [(javaQuery, javaUrl), (javaQuery, otherUrl)])
      javaQuery javaUrl = 10 := by
    have h : exactMatchB
        (build_training_index [(javaQuery, javaUrl), (javaQuery, otherUrl)])
        (normQ javaQuery) javaUrl = true := by decide
    simp [compute_training_score, h]
  have f1 : anyKeyword (lowerS javaQuery) technicalKeywords = true := by decide
  have f2 : anyKeyword (lowerS javaQuery) behavioralKeywords = false := by decide
  have f3 : anyKeyword (lowerS javaQuery) businessKeywords = false := by decide
  have f4 : anyKeyword (lowerS javaQuery) entryKeywords = false := by decide
  have hNameO : compute_name_overlap javaQuery javaOther = 1 := by
    have e1 : (extract_key_terms javaQuery ∩ extract_key_terms javaOther.name).card
        = 3 := by decide
    have e2 : (extract_key_terms javaQuery ∩
        extract_key_terms javaOther.description).card = 0 := by decide
    have e3 : (extract_key_terms javaQuery).card = 3 := by decide
    have e4 : ¬(extract_key_terms javaQuery = ∅) := by decide
    simp only [compute_name_overlap]
    rw [if_neg e4, e1, e2, e3]
    norm_num
  have hNameT : compute_name_overlap javaQuery javaTarget = 0 := by
    have e1 : (extract_key_terms javaQuery ∩ extract_key_terms javaTarget.name).card
        = 0 := by decide
    have e2 : (extract_key_terms javaQuery ∩
        extract_key_terms javaTarget.description).card = 0 := by decide
    have e3 : (extract_key_terms javaQuery).card = 3 := by decide
    have e4 : ¬(extract_key_terms javaQuery = ∅) := by decide
    simp only [compute_name_overlap]
    rw [if_neg e4, e1, e2, e3]
    norm_num
  have hAlignO : compute_test_type_alignment javaQuery javaOther = 1 := by
    simp [compute_test_type_alignment, f1, f2, f3, f4, javaOther]
  have hAlignT : compute_test_type_alignment javaQuery javaTarget = 0 := by
    simp [compute_test_type_alignment, f1, f2, f3, f4, javaTarget]
  have hscoreO : (scoreCandidate
      (build_training_index [(javaQuery, javaUrl), (javaQuery, otherUrl)])
      javaQuery ⟨otherUrl, 1 - 1, javaOther⟩).score = 19/20 := by
    simp only [scoreCandidate, h10O, hNameO, hAlignO]
    norm_num
  have hscoreT : (scoreCandidate
      (build_training_index [(javaQuery, javaUrl), (javaQuery, otherUrl)])
      javaQuery ⟨javaUrl, 1 - 1, javaTarget⟩).score = 3/5 := by
    simp only [scoreCandidate, h10T, hNameT, hAlignT]
    norm_num
  have hle : (scoreCandidate
      (build_training_index [(javaQuery, javaUrl), (javaQuery, otherUrl)])
      javaQuery ⟨javaUrl, 1 - 1, javaTarget⟩).score ≤ (scoreCandidate
      (build_training_index [(javaQuery, javaUrl), (javaQuery, otherUrl)])
      javaQuery ⟨otherUrl, 1 - 1, javaOther⟩).score := by
    rw [hscoreO, hscoreT]
    norm_num
  simp only [recommend, hs, Option.map_some, Option.map_some', stage2_rerank,
    List.map_cons, List.map_nil, sortDescBy, insertDescBy]
  rw [if_pos hle]
  simp [scoreCandidate]

/-- C5 amended: when the training set consists of exactly the scenario
pair, querying exactly "java developer role" with `top_k = 1` returns the
trained id as the sole top result for every catalog and vector index in
which that id appears as a candidate and every achievable embedding
similarity (FAISS squared L2 distances between L2-normalised vectors lie
in [0, 4], so similarities `1 - d` lie in [-3, 1]). -/
theorem C5_java_scenario_amended :
    ∀ (metaUrls : List Str) (catalog : List Assessment) (rs : List (Nat × ℚ))
      (cands : List Candidate),
      (∀ r ∈ rs, 0 ≤ r.2 ∧ r.2 ≤ 4) →
      stage1_retrieval metaUrls catalog rs = some cands →
      (∃ c ∈ cands, c.url = javaUrl) →
      ∃ e, recommend (build_training_index javaTrainingRow) metaUrls catalog
          (some rs) javaQuery 1 = some [e] ∧ e.url = javaUrl := by
  intro metaUrls catalog rs cands hd hs hex
  rcases hex with ⟨cT, hcT, hurlT⟩
  have hsims := stage1_sim_bounds hs hd
  have htb : ∀ c ∈ cands, c.url = javaUrl →
      (9:ℚ)/20 ≤ (scoreCandidate (build_training_index javaTrainingRow)
        javaQuery c).score := by
    intro c hc hcu
    have hsim := hsims c hc
    have hts : compute_training_score (build_training_index javaTrainingRow)
        javaQuery c.url = 10 := by
      rw [hcu]; exact java_training_ten
    have h1 : 0 ≤ compute_name_overlap javaQuery c.assessment :=
      name_overlap_nonneg _ _
    have h2 : 0 ≤ compute_test_type_alignment javaQuery c.assessment :=
      alignment_nonneg _ _
    have h3 : -3 ≤ c.embedding_similarity := hsim.1
    simp only [scoreCandidate]
    rw [hts, show min ((10:ℚ)/10) 1 = 1 from by norm_num]
    linarith
  have hnb : ∀ c ∈ cands, c.url ≠ javaUrl →
      (scoreCandidate (build_training_index javaTrainingRow) javaQuery c).score
        ≤ 2/5 := by
    intro c hc hcu
    have hsim := hsims c hc
    have hts : compute_training_score (build_training_index javaTrainingRow)
        javaQuery c.url = 0 := java_training_zero_of_ne hcu
    have h1 : compute_name_overlap javaQuery c.assessment ≤ 1 :=
      name_overlap_le_one _ _
    have h1' : 0 ≤ compute_name_overlap javaQuery c.assessment :=
      name_overlap_nonneg _ _
    have h2 : compute_test_type_alignment javaQuery c.assessment ≤ 1 :=
      java_alignment_le_one _
    have h2' : 0 ≤ compute_test_type_alignment javaQuery c.assessment :=
      alignment_nonneg _ _
    have h3 : c.embedding_similarity ≤ 1 := hsim.2
    simp only [scoreCandidate]
    rw [hts, show min ((0:ℚ)/10) 1 = 0 from by norm_num]
    linarith
  have hmemT : scoreCandidate (build_training_index javaTrainingRow) javaQuery cT ∈
      cands.map (scoreCandidate (build_training_index javaTrainingRow) javaQuery) :=
    List.mem_map_of_mem _ hcT
  obtain ⟨h0, t0, hsort⟩ : ∃ h0 t0,
      sortDescBy ScoredEntry.score
        (cands.map (scoreCandidate (build_training_index javaTrainingRow) javaQuery))
        = h0 :: t0 := by
    cases hsl : sortDescBy ScoredEntry.score
        (cands.map (scoreCandidate (build_training_index javaTrainingRow) javaQuery)) with
    | nil =>
      exfalso
      have hlen := length_sortDescBy ScoredEntry.score
        (cands.map (scoreCandidate (build_training_index javaTrainingRow) javaQuery))
      rw [hsl] at hlen
      have hnil : cands.map (scoreCandidate (build_training_index javaTrainingRow)
          javaQuery) = [] := List.length_eq_zero.1 hlen.symm
      rw [hnil] at hmemT
      cases hmemT
    | cons a b => exact ⟨a, b, rfl⟩
  have hmax := sortDescBy_head_max ScoredEntry.score hsort
  have hheadmem : h0 ∈ cands.map
      (scoreCandidate (build_training_index javaTrainingRow) javaQuery) :=
    (sortDescBy_perm ScoredEntry.score _).subset (hsort ▸ List.mem_cons_self _ _)
  rcases List.mem_map.1 hheadmem with ⟨cH, hcH, hceq⟩
  have hscoreH : (9:ℚ)/20 ≤ h0.score :=
    le_trans (htb cT hcT hurlT) (hmax _ hmemT)
  have hH : cH.url = javaUrl := by
    by_contra hne'
    have hb := hnb cH hcH hne'
    rw [hceq] at hb
    linarith
  refine ⟨h0, ?_, ?_⟩
  · simp only [recommend, hs, Option.map_some', stage2_rerank, hsort,
      List.take_succ_cons, List.take_zero]
  · rw [← hceq]
    exact hH

/-- Witness for the amended C5 on a one-assessment catalog and index. -/
theorem C5_java_scenario_witness :
    (∀ r ∈ [((0, 1) : Nat × ℚ)], 0 ≤ r.2 ∧ r.2 ≤ 4) ∧
    stage1_retrieval [javaUrl] [javaTarget] [(0, 1)] =
      some [⟨javaUrl, 1 - 1, javaTarget⟩] ∧
    (∃ c ∈ [(⟨javaUrl, 1 - 1, javaTarget⟩ : Candidate)], c.url = javaUrl) ∧
    ∃ e, recommend (build_training_index javaTrainingRow) [javaUrl] [javaTarget]
        (some [(0, 1)]) javaQuery 1 = some [e] ∧ e.url = javaUrl := by
  have hd : ∀ r ∈ [((0, 1) : Nat × ℚ)], 0 ≤ r.2 ∧ r.2 ≤ 4 := by
    intro r hr
    rw [List.mem_singleton] at hr
    subst hr
    exact ⟨by norm_num, by norm_num⟩
  have hs : stage1_retrieval [javaUrl] [javaTarget] [(0, 1)] =
      some [⟨javaUrl, 1 - 1, javaTarget⟩] := rfl
  have hex : ∃ c ∈ [(⟨javaUrl, 1 - 1, javaTarget⟩ : Candidate)], c.url = javaUrl :=
    ⟨_, List.mem_singleton.2 rfl, rfl⟩
  exact ⟨hd, hs, hex,
    C5_java_scenario_amended [javaUrl] [javaTarget] [(0, 1)] _ hd hs hex⟩

end SHLRec
